import Mathlib

/-!
# Verification of `eytzinger_array.hpp`

A shallow embedding of the single-header C++ container
`eytzinger_array<T, N, Compare>` and proofs about its two algorithms:

* `breadth_first_copy` / `make_eytzinger` — construction: sort the input,
  then write the sorted sequence into breadth-first (1-indexed implicit
  binary tree) positions by an in-order recursion;
* `find` — branchless descent `k := 2k + (a[k-1] < value)` over the implicit
  tree followed by the bit-trick correction `k >>= ffsl(~k)`.

Buffers are modelled as `List α` indexed with `List.getD` (C++ `operator[]`
with in-bounds accesses; the default is never read on the accesses the code
performs, which is part of what is proved).  The element type carries a
linear order, matching the comparator contract (`std::less<T>` over a
totally ordered `T`; the header's stated scope excludes non-totally-ordered
types).  Iterators are modelled as integer offsets from `begin()`:
`begin() + o` is offset `o`, `end()` is offset `N`.
-/

namespace Eytzinger

variable {α : Type} [LinearOrder α] [Inhabited α]

/-- The recursion
```
constexpr static size_t breadth_first_copy(const array &in, array &out,
                                           size_t i = 0, size_t k = 1) {
    if (k <= N) {
        i = breadth_first_copy(in, out, i, k * 2);
        out[k - 1] = in[i++];
        i = breadth_first_copy(in, out, i, k * 2 + 1);
    }
    return i;
}
```
returning the pair (out, i).  The C++ guard is `k <= N`; the extra `1 ≤ k`
conjunct records the call-site invariant (the root call passes `k = 1` and
children are `2k`, `2k+1`, so `k = 0` never occurs) and makes the recursion
well-founded. -/
def breadth_first_copy (inp : List α) (N : Nat) (out : List α) (i k : Nat) :
    List α × Nat :=
  if 1 ≤ k ∧ k ≤ N then
    let r1 := breadth_first_copy inp N out i (k * 2)
    let out1 := r1.1.set (k - 1) (inp.getD r1.2 default)
    breadth_first_copy inp N out1 (r1.2 + 1) (k * 2 + 1)
  else
    (out, i)
  termination_by N + 1 - k
  decreasing_by all_goals omega

/-- `make_eytzinger`: sort the input with the comparator (`std::sort` with
`<`, i.e. the result is `≤`-sorted), then fill a fresh buffer by
`breadth_first_copy`.  The default-initialised `std::array<T, N> result` is
modelled as `List.replicate N default`; every position is overwritten. -/
def make_eytzinger (arr : List α) : List α :=
  let s := List.insertionSort (· ≤ ·) arr
  (breadth_first_copy s arr.length (List.replicate arr.length default) 0 1).1

/-- The descent loop of `find`:
```
unsigned long k = 1;
while (k <= N) {
    k = 2 * k + Compare::operator()(operator[](k - 1), value);
}
```
returning the exit value of `k`.  As in `breadth_first_copy`, `1 ≤ k` is the
call-site invariant added to the C++ guard `k <= N` for well-foundedness. -/
def findLoop (lay : List α) (N : Nat) (value : α) (k : Nat) : Nat :=
  if 1 ≤ k ∧ k ≤ N then
    findLoop lay N value (2 * k + if lay.getD (k - 1) default < value then 1 else 0)
  else
    k
  termination_by N + 1 - k
  decreasing_by split <;> omega

/-- `__builtin_ffsl(~k)`: one plus the bit position of the lowest set bit of
`~k`, i.e. one plus the number of trailing one-bits of `k` (the C++ index is
an `unsigned long`, and every value reached by the search fits its width, so
`~k` always has a set bit). -/
def ffsNot (k : Nat) : Nat :=
  if k % 2 = 0 then 1 else ffsNot (k / 2) + 1
  termination_by k
  decreasing_by
    rename_i h
    exact Nat.div_lt_self (by omega) (by omega)

/-- The corrected 1-based index computed by `find` after the descent:
`k >>= __builtin_ffsl(~k)`. -/
def correct (k : Nat) : Nat := k >>> ffsNot k

/-- The corrected 1-based index for a whole `find` call. -/
def find_idx (lay : List α) (N : Nat) (value : α) : Nat :=
  correct (findLoop lay N value 1)

/-- `find` returns `cbegin() + k - 1` with `k` the corrected index: modelled
as the integer offset `k - 1` from `begin()`.  When `k = 0` the C++
`unsigned long` expression `k - 1` wraps to `ULONG_MAX`, which pointer
arithmetic (via the signed `difference_type`) takes one position before
`begin()`: offset `-1`. -/
def find_offset (lay : List α) (N : Nat) (value : α) : Int :=
  (find_idx lay N value : Int) - 1

/-- The in-order traversal of the implicit binary tree on indices
`{1, …, N}` (node `k` between its subtrees rooted at `2k` and `2k + 1`):
the order in which `breadth_first_copy` visits and writes tree positions. -/
def inorderList (N k : Nat) : List Nat :=
  if 1 ≤ k ∧ k ≤ N then
    inorderList N (k * 2) ++ k :: inorderList N (k * 2 + 1)
  else
    []
  termination_by N + 1 - k
  decreasing_by all_goals omega

/-- The buffer positions `k - 1` read by the descent loop of `find`, in
order: instrumentation of `findLoop` for the bounds-safety claim. -/
def findLoopAccesses (lay : List α) (N : Nat) (value : α) (k : Nat) : List Nat :=
  if 1 ≤ k ∧ k ≤ N then
    (k - 1) ::
      findLoopAccesses lay N value
        (2 * k + if lay.getD (k - 1) default < value then 1 else 0)
  else
    []
  termination_by N + 1 - k
  decreasing_by split <;> omega

/-- Modelled from the spec: "the 1-based index of the last element for which
the walk went `left`" — the descent of `find` re-run while explicitly
recording, in `cand`, the most recent node at which the comparison sent the
walk to the left child (`cand = 0` before any left turn).  Used to state
that the bit-trick correction recovers exactly this node. -/
def lastLeftTurn (lay : List α) (N : Nat) (value : α) (k cand : Nat) : Nat :=
  if 1 ≤ k ∧ k ≤ N then
    if lay.getD (k - 1) default < value then
      lastLeftTurn lay N value (2 * k + 1) cand
    else
      lastLeftTurn lay N value (2 * k) k
  else
    cand
  termination_by N + 1 - k
  decreasing_by all_goals omega

/-! ## The in-order index list: membership, disjointness, `Nodup`, length

`inorderList N k` enumerates exactly the tree indices `j` of the subtree
rooted at `k` (those `j` with `j / 2 ^ t = k` for some `t`) that lie in
`{1, …, N}`. -/

theorem inorderList_of_le {N k : Nat} (h1 : 1 ≤ k) (h2 : k ≤ N) :
    inorderList N k = inorderList N (k * 2) ++ k :: inorderList N (k * 2 + 1) := by
  rw [inorderList]; simp [h1, h2]

theorem inorderList_of_not {N k : Nat} (h : ¬(1 ≤ k ∧ k ≤ N)) :
    inorderList N k = [] := by
  rw [inorderList]; simp only [if_neg h]

theorem mem_inorderList {N j : Nat} :
    ∀ {k}, 1 ≤ k → j ∈ inorderList N k →
      1 ≤ j ∧ j ≤ N ∧ ∃ t, j / 2 ^ t = k := by
  intro k
  induction k using inorderList.induct N with
  | case1 x hx ih1 ih2 =>
    intro _ hj
    rw [inorderList_of_le hx.1 hx.2] at hj
    rcases List.mem_append.mp hj with hL | hcR
    · obtain ⟨hj1, hjN, t, ht⟩ := ih1 (by omega) hL
      refine ⟨hj1, hjN, t + 1, ?_⟩
      rw [pow_succ, ← Nat.div_div_eq_div_mul, ht]
      omega
    · rcases List.mem_cons.mp hcR with rfl | hR
      · exact ⟨hx.1, hx.2, 0, by simp⟩
      · obtain ⟨hj1, hjN, t, ht⟩ := ih2 (by omega) hR
        refine ⟨hj1, hjN, t + 1, ?_⟩
        rw [pow_succ, ← Nat.div_div_eq_div_mul, ht]
        omega
  | case2 x hx =>
    intro _ hj
    rw [inorderList_of_not hx] at hj
    cases hj

theorem inorderList_complete {N : Nat} :
    ∀ (t : Nat) {j k}, 1 ≤ k → 1 ≤ j → j ≤ N → j / 2 ^ t = k →
      j ∈ inorderList N k := by
  intro t
  induction t with
  | zero =>
    intro j k hk h1 h2 h3
    simp only [pow_zero, Nat.div_one] at h3
    subst h3
    rw [inorderList_of_le hk h2]
    simp
  | succ t ih =>
    intro j k hk h1 h2 h3
    have hm : j / 2 ^ t / 2 = k := by
      rw [Nat.div_div_eq_div_mul, ← pow_succ]; exact h3
    have hmj : j / 2 ^ t ≤ j := Nat.div_le_self j (2 ^ t)
    have hjm : j ∈ inorderList N (j / 2 ^ t) := ih (by omega) h1 h2 rfl
    have hkN : k ≤ N := by omega
    rw [inorderList_of_le hk hkN]
    have hcases : j / 2 ^ t = k * 2 ∨ j / 2 ^ t = k * 2 + 1 := by omega
    rcases hcases with h | h <;> rw [h] at hjm
    · exact List.mem_append.mpr (Or.inl hjm)
    · exact List.mem_append.mpr (Or.inr (List.mem_cons_of_mem _ hjm))

/-- Descending a strictly deeper number of levels strictly shrinks a nonzero
quotient: used for disjointness of sibling subtrees. -/
theorem div_pow_le_of_lt {j t s : Nat} (hts : t < s) :
    j / 2 ^ s ≤ j / 2 ^ t / 2 := by
  have hts' : t + (s - t) = s := by omega
  have : j / 2 ^ s = j / 2 ^ t / 2 ^ (s - t) := by
    rw [Nat.div_div_eq_div_mul, ← pow_add, hts']
  rw [this]
  calc j / 2 ^ t / 2 ^ (s - t) ≤ j / 2 ^ t / 2 ^ 1 :=
        Nat.div_le_div_left (Nat.pow_le_pow_right (by omega) (by omega)) (by positivity)
    _ = j / 2 ^ t / 2 := by norm_num

theorem subtree_disjoint {N k j : Nat} (hk : 1 ≤ k)
    (h1 : j ∈ inorderList N (k * 2)) (h2 : j ∈ inorderList N (k * 2 + 1)) :
    False := by
  obtain ⟨-, -, t, ht⟩ := mem_inorderList (by omega) h1
  obtain ⟨-, -, s, hs⟩ := mem_inorderList (by omega) h2
  rcases Nat.lt_trichotomy t s with h | h | h
  · have := div_pow_le_of_lt (j := j) h
    omega
  · subst h; omega
  · have := div_pow_le_of_lt (j := j) h
    omega

theorem self_not_mem_left {N k : Nat} (hk : 1 ≤ k) :
    k ∉ inorderList N (k * 2) := by
  intro h
  obtain ⟨-, -, t, ht⟩ := mem_inorderList (by omega) h
  have := Nat.div_le_self k (2 ^ t)
  omega

theorem self_not_mem_right {N k : Nat} (hk : 1 ≤ k) :
    k ∉ inorderList N (k * 2 + 1) := by
  intro h
  obtain ⟨-, -, t, ht⟩ := mem_inorderList (by omega) h
  have := Nat.div_le_self k (2 ^ t)
  omega

theorem nodup_inorderList {N : Nat} : ∀ {k}, (inorderList N k).Nodup := by
  intro k
  induction k using inorderList.induct N with
  | case1 x hx ih1 ih2 =>
    rw [inorderList_of_le hx.1 hx.2]
    rw [List.nodup_append]
    refine ⟨ih1, List.nodup_cons.mpr ⟨self_not_mem_right hx.1, ih2⟩, ?_⟩
    intro a haL haR
    rcases List.mem_cons.mp haR with rfl | haR
    · exact self_not_mem_left hx.1 haL
    · exact subtree_disjoint hx.1 haL haR
  | case2 x hx =>
    rw [inorderList_of_not hx]
    exact List.nodup_nil

theorem mem_inorderList_one {N j : Nat} :
    j ∈ inorderList N 1 ↔ 1 ≤ j ∧ j ≤ N := by
  constructor
  · intro h
    obtain ⟨h1, h2, -⟩ := mem_inorderList le_rfl h
    exact ⟨h1, h2⟩
  · rintro ⟨h1, h2⟩
    refine inorderList_complete (Nat.log 2 j) le_rfl h1 h2 ?_
    have hl := Nat.pow_log_le_self 2 (show j ≠ 0 by omega)
    have hu := Nat.lt_pow_succ_log_self (show (1:Nat) < 2 by norm_num) j
    have hp : 0 < 2 ^ Nat.log 2 j := by positivity
    have h2L : 2 ^ (Nat.log 2 j).succ = 2 * 2 ^ Nat.log 2 j := by
      rw [pow_succ]; ring
    have hge : 1 ≤ j / 2 ^ Nat.log 2 j := (Nat.one_le_div_iff hp).mpr hl
    have hlt : j / 2 ^ Nat.log 2 j < 2 := by
      rw [Nat.div_lt_iff_lt_mul hp]
      omega
    omega

theorem inorderList_one_perm {N : Nat} :
    (inorderList N 1).Perm (List.range' 1 N) := by
  rw [List.perm_ext_iff_of_nodup nodup_inorderList (List.nodup_range' 1 N)]
  intro a
  rw [mem_inorderList_one, List.mem_range'_1]
  omega

theorem length_inorderList_one {N : Nat} : (inorderList N 1).length = N := by
  rw [inorderList_one_perm.length_eq, List.length_range']

/-! ## `getD`/`set` helpers -/

theorem getD_set_ne {β : Type} (l : List β) {a b : Nat} (v d : β) (h : a ≠ b) :
    (l.set a v).getD b d = l.getD b d := by
  simp [List.getD_eq_getElem?_getD, List.getElem?_set_ne h]

theorem getD_set_self {β : Type} (l : List β) {a : Nat} (v d : β)
    (h : a < l.length) :
    (l.set a v).getD a d = v := by
  simp [List.getD_eq_getElem?_getD, List.getElem?_set_self h]

theorem getD_mem_of_lt {l : List Nat} {m : Nat} (h : m < l.length) :
    l.getD m 0 ∈ l := by
  rw [List.getD_eq_getElem _ _ h]
  exact l.getElem_mem h

/-! ## What `breadth_first_copy` writes -/

theorem breadth_first_copy_of_le {α' : Type} [Inhabited α'] {inp : List α'}
    {N : Nat} {out : List α'} {i k : Nat} (h1 : 1 ≤ k) (h2 : k ≤ N) :
    breadth_first_copy inp N out i k =
      breadth_first_copy inp N
        ((breadth_first_copy inp N out i (k * 2)).1.set (k - 1)
          (inp.getD (breadth_first_copy inp N out i (k * 2)).2 default))
        ((breadth_first_copy inp N out i (k * 2)).2 + 1) (k * 2 + 1) := by
  conv_lhs => rw [breadth_first_copy]
  simp [h1, h2]

theorem breadth_first_copy_of_not {α' : Type} [Inhabited α'] {inp : List α'}
    {N : Nat} {out : List α'} {i k : Nat} (h : ¬(1 ≤ k ∧ k ≤ N)) :
    breadth_first_copy inp N out i k = (out, i) := by
  rw [breadth_first_copy]; simp only [if_neg h]

omit [LinearOrder α] in
/-- Main inductive specification of the in-order fill: on the subtree rooted
at `k` it advances the input counter by the subtree size, leaves positions
outside the subtree untouched, and writes the `m`-th input element (from
`i`) at the buffer position of the `m`-th subtree node in in-order. -/
theorem breadth_first_copy_spec (inp : List α) (N : Nat) :
    ∀ (out : List α) (i k : Nat), 1 ≤ k → out.length = N →
      (breadth_first_copy inp N out i k).1.length = N ∧
      (breadth_first_copy inp N out i k).2 = i + (inorderList N k).length ∧
      (∀ p : Nat, p + 1 ∉ inorderList N k →
        (breadth_first_copy inp N out i k).1.getD p default
          = out.getD p default) ∧
      (∀ m : Nat, m < (inorderList N k).length →
        (breadth_first_copy inp N out i k).1.getD
            ((inorderList N k).getD m 0 - 1) default
          = inp.getD (i + m) default) := by
  intro out i k
  induction out, i, k using breadth_first_copy.induct inp N with
  | case1 out i k hk r1 out1 ih1 ih2 =>
    intro _ hlen
    obtain ⟨ih1len, ih1i, ih1un, ih1wr⟩ := ih1 (by omega) hlen
    have hout1len :
        ((breadth_first_copy inp N out i (k * 2)).1.set (k - 1)
          (inp.getD (breadth_first_copy inp N out i (k * 2)).2 default)).length
          = N := by
      rw [List.length_set]; exact ih1len
    obtain ⟨ih2len, ih2i, ih2un, ih2wr⟩ := ih2 (by omega) hout1len
    rw [breadth_first_copy_of_le hk.1 hk.2]
    have hmemL : ∀ j ∈ inorderList N (k * 2), 1 ≤ j ∧ j ≤ N :=
      fun j hj => ⟨(mem_inorderList (by omega) hj).1,
                   (mem_inorderList (by omega) hj).2.1⟩
    refine ⟨ih2len, ?_, ?_, ?_⟩
    · rw [ih2i, ih1i, inorderList_of_le hk.1 hk.2]
      simp only [List.length_append, List.length_cons]
      omega
    · intro p hp
      rw [inorderList_of_le hk.1 hk.2] at hp
      simp only [List.mem_append, List.mem_cons, not_or] at hp
      rw [ih2un p hp.2.2, getD_set_ne _ _ _ (by omega), ih1un p hp.1]
    · intro m hm
      rw [inorderList_of_le hk.1 hk.2] at hm ⊢
      simp only [List.length_append, List.length_cons] at hm
      rcases Nat.lt_trichotomy m (inorderList N (k * 2)).length with hmL | hmL | hmL
      · -- the node written is in the left subtree
        rw [List.getD_append _ _ _ _ hmL]
        have hjL : (inorderList N (k * 2)).getD m 0 ∈ inorderList N (k * 2) :=
          getD_mem_of_lt hmL
        have hj1 : 1 ≤ (inorderList N (k * 2)).getD m 0 := (hmemL _ hjL).1
        have hjnotR : (inorderList N (k * 2)).getD m 0 - 1 + 1
            ∉ inorderList N (k * 2 + 1) := by
          rw [show (inorderList N (k * 2)).getD m 0 - 1 + 1
                = (inorderList N (k * 2)).getD m 0 by omega]
          intro hmem
          exact subtree_disjoint hk.1 hjL hmem
        rw [ih2un _ hjnotR]
        have hjk : (inorderList N (k * 2)).getD m 0 ≠ k := by
          intro h
          exact self_not_mem_left hk.1 (h ▸ hjL)
        rw [getD_set_ne _ _ _ (by omega)]
        exact ih1wr m hmL
      · -- the node written is the root k itself
        rw [List.getD_append_right _ _ _ _ (by omega), hmL]
        simp only [Nat.sub_self, List.getD_cons_zero]
        have hknotR : k - 1 + 1 ∉ inorderList N (k * 2 + 1) := by
          rw [show k - 1 + 1 = k by omega]
          exact self_not_mem_right hk.1
        rw [ih2un _ hknotR, getD_set_self _ _ _ (by rw [ih1len]; omega), ih1i]
      · -- the node written is in the right subtree
        have hm' : m - (inorderList N (k * 2)).length - 1
            < (inorderList N (k * 2 + 1)).length := by omega
        rw [List.getD_append_right _ _ _ _ (by omega)]
        rw [show m - (inorderList N (k * 2)).length
              = (m - (inorderList N (k * 2)).length - 1) + 1 by omega]
        rw [List.getD_cons_succ]
        rw [ih2wr _ hm', ih1i]
        congr 1
        omega
  | case2 out i k hk =>
    intro hk1 hlen
    rw [breadth_first_copy_of_not hk, inorderList_of_not hk]
    simp [hlen]

/-! ## The layout: length, in-order traversal, permutation -/

theorem length_make_eytzinger (arr : List α) :
    (make_eytzinger arr).length = arr.length := by
  have h := (breadth_first_copy_spec (List.insertionSort (· ≤ ·) arr) arr.length
    (List.replicate arr.length default) 0 1 le_rfl (by simp)).1
  simpa [make_eytzinger] using h

theorem layout_getD (arr : List α) (m : Nat) (hm : m < arr.length) :
    (make_eytzinger arr).getD ((inorderList arr.length 1).getD m 0 - 1) default
      = (List.insertionSort (· ≤ ·) arr).getD m default := by
  have h := (breadth_first_copy_spec (List.insertionSort (· ≤ ·) arr) arr.length
      (List.replicate arr.length default) 0 1 le_rfl (by simp)).2.2.2 m
      (by rw [length_inorderList_one]; exact hm)
  simpa [make_eytzinger] using h

/-- In-order traversal of the built layout reads back the sorted input. -/
theorem inorder_traversal_eq_sorted (arr : List α) :
    (inorderList arr.length 1).map
        (fun j => (make_eytzinger arr).getD (j - 1) default)
      = List.insertionSort (· ≤ ·) arr := by
  apply List.ext_getElem
  · simp [length_inorderList_one]
  · intro n h1 h2
    have hn : n < arr.length := by
      simpa [length_inorderList_one] using h2
    have hn' : n < (inorderList arr.length 1).length := by
      rw [length_inorderList_one]; exact hn
    rw [List.getElem_map]
    rw [← List.getD_eq_getElem (inorderList arr.length 1) 0 hn']
    rw [← List.getD_eq_getElem (List.insertionSort (· ≤ ·) arr) default h2]
    exact layout_getD arr n hn

theorem self_eq_map_range_getD {β : Type} [Inhabited β] (l : List β) :
    l = (List.range l.length).map (fun p => l.getD p default) := by
  apply List.ext_getElem
  · simp
  · intro n h1 h2
    rw [List.getElem_map, List.getElem_range, List.getD_eq_getElem _ _ h1]

/-- Any buffer is a permutation of its own in-order read-out. -/
theorem perm_inorder_map {beta : Type} [Inhabited beta] (l : List beta) :
    l.Perm ((inorderList l.length 1).map (fun j => l.getD (j - 1) default)) := by
  have h2 : (List.range' 1 l.length).map (fun j => l.getD (j - 1) default)
      = (List.range l.length).map (fun p => l.getD p default) := by
    rw [List.range'_eq_map_range, List.map_map]
    apply List.map_congr_left
    intro x _
    simp
  conv_lhs => rw [self_eq_map_range_getD l]
  rw [← h2]
  exact (inorderList_one_perm.map _).symm

/-- The layout is a permutation of the input. -/
theorem make_eytzinger_perm (arr : List α) : (make_eytzinger arr).Perm arr := by
  have h := perm_inorder_map (make_eytzinger arr)
  rw [length_make_eytzinger, inorder_traversal_eq_sorted] at h
  exact h.trans (List.perm_insertionSort _ arr)

/-! ## The bit-trick correction tracks the last left turn -/

theorem ffsNot_even {k : Nat} (h : k % 2 = 0) : ffsNot k = 1 := by
  rw [ffsNot]; simp [h]

theorem ffsNot_odd {k : Nat} (h : k % 2 = 1) :
    ffsNot k = ffsNot (k / 2) + 1 := by
  rw [ffsNot]; simp [h]

theorem correct_left {k : Nat} : correct (2 * k) = k := by
  unfold correct
  rw [ffsNot_even (by omega), Nat.shiftRight_eq_div_pow]
  norm_num

theorem correct_right {k : Nat} : correct (2 * k + 1) = correct k := by
  unfold correct
  rw [ffsNot_odd (by omega)]
  have h2 : (2 * k + 1) / 2 = k := by omega
  rw [h2, show ffsNot k + 1 = 1 + ffsNot k by omega, Nat.shiftRight_add]
  congr 1

theorem correct_one : correct 1 = 0 := by
  unfold correct
  rw [ffsNot_odd (by omega)]
  norm_num [ffsNot_even, Nat.shiftRight_eq_div_pow]

theorem findLoop_of_le {lay : List α} {N : Nat} {value : α} {k : Nat}
    (h : 1 ≤ k ∧ k ≤ N) :
    findLoop lay N value k
      = findLoop lay N value
          (2 * k + if lay.getD (k - 1) default < value then 1 else 0) := by
  conv_lhs => rw [findLoop]
  simp only [if_pos h]

theorem findLoop_of_not {lay : List α} {N : Nat} {value : α} {k : Nat}
    (h : ¬(1 ≤ k ∧ k ≤ N)) :
    findLoop lay N value k = k := by
  rw [findLoop]; simp only [if_neg h]

theorem lastLeftTurn_of_lt {lay : List α} {N : Nat} {value : α} {k cand : Nat}
    (h : 1 ≤ k ∧ k ≤ N) (hlt : lay.getD (k - 1) default < value) :
    lastLeftTurn lay N value k cand = lastLeftTurn lay N value (2 * k + 1) cand := by
  conv_lhs => rw [lastLeftTurn]
  simp only [if_pos h, if_pos hlt]

theorem lastLeftTurn_of_ge {lay : List α} {N : Nat} {value : α} {k cand : Nat}
    (h : 1 ≤ k ∧ k ≤ N) (hge : ¬ lay.getD (k - 1) default < value) :
    lastLeftTurn lay N value k cand = lastLeftTurn lay N value (2 * k) k := by
  conv_lhs => rw [lastLeftTurn]
  simp only [if_pos h, if_neg hge]

theorem lastLeftTurn_of_not {lay : List α} {N : Nat} {value : α} {k cand : Nat}
    (h : ¬(1 ≤ k ∧ k ≤ N)) :
    lastLeftTurn lay N value k cand = cand := by
  rw [lastLeftTurn]; simp only [if_neg h]

/-- The corrected exit index of the descent equals the recorded last left
turn: `k >>= ffsl(~k)` discards the trailing right-moves and the final
left-move, landing on the node that made that left-move. -/
theorem correct_findLoop (lay : List α) (N : Nat) (value : α) :
    ∀ k cand, correct k = cand →
      correct (findLoop lay N value k) = lastLeftTurn lay N value k cand := by
  intro k cand
  induction k, cand using lastLeftTurn.induct lay N value with
  | case1 k cand hk hlt ih =>
    intro hkc
    rw [findLoop_of_le hk, lastLeftTurn_of_lt hk hlt, if_pos hlt]
    exact ih (by rw [correct_right]; exact hkc)
  | case2 k cand hk hge ih =>
    intro _
    rw [findLoop_of_le hk, lastLeftTurn_of_ge hk hge, if_neg hge]
    exact ih correct_left
  | case3 k cand hk =>
    intro hkc
    rw [findLoop_of_not hk, lastLeftTurn_of_not hk]
    exact hkc

theorem find_idx_eq_lastLeftTurn (lay : List α) (N : Nat) (value : α) :
    find_idx lay N value = lastLeftTurn lay N value 1 0 :=
  correct_findLoop lay N value 1 0 correct_one

/-! ## Search correctness: the descent finds the lower bound -/

theorem sorted_split_le {β : Type} [LinearOrder β] {f : Nat → β} {l X Y : List Nat}
    (hs : List.Sorted (· ≤ ·) (l.map f)) (hl : l = X ++ Y)
    {a b : Nat} (ha : a ∈ X) (hb : b ∈ Y) : f a ≤ f b := by
  subst hl
  rw [List.map_append] at hs
  have hp : List.Pairwise (· ≤ ·) ((X.map f) ++ (Y.map f)) := hs
  exact (List.pairwise_append.mp hp).2.2 (f a) (List.mem_map_of_mem f ha)
    (f b) (List.mem_map_of_mem f hb)

/-- Loop invariant of the recorded descent.  Entering subtree `k`, the full
in-order listing splits as `P ++ (block of k) ++ S`, every index in `P`
holds a value `< value`, and either no left turn was taken yet (`cand = 0`
and the block reaches the end) or `cand` heads `S` and holds a value
`≥ value`.  On exit the walk reports `0` with every element `< value`, or a
node holding a value `≥ value` preceded in-order only by values `< value`. -/
theorem lastLeftTurn_spec (lay : List α) (N : Nat) (value : α)
    (hsorted : List.Sorted (· ≤ ·)
      ((inorderList N 1).map (fun j => lay.getD (j - 1) default))) :
    ∀ k cand, 1 ≤ k →
      (∃ P S : List Nat,
        inorderList N 1 = P ++ (inorderList N k ++ S) ∧
        (∀ j ∈ P, lay.getD (j - 1) default < value) ∧
        ((cand = 0 ∧ S = []) ∨
         (S.head? = some cand ∧ ¬ lay.getD (cand - 1) default < value))) →
      ((lastLeftTurn lay N value k cand = 0 ∧
          ∀ j ∈ inorderList N 1, lay.getD (j - 1) default < value) ∨
       (∃ P' S' : List Nat,
          inorderList N 1 = P' ++ lastLeftTurn lay N value k cand :: S' ∧
          (∀ j ∈ P', lay.getD (j - 1) default < value) ∧
          ¬ lay.getD (lastLeftTurn lay N value k cand - 1) default < value)) := by
  intro k cand
  induction k, cand using lastLeftTurn.induct lay N value with
  | case1 k cand hk hlt ih =>
    intro _ hinv
    obtain ⟨P, S, hdec, hP, hcand⟩ := hinv
    rw [lastLeftTurn_of_lt hk hlt]
    have hsub := inorderList_of_le hk.1 hk.2
    have h2k : 2 * k + 1 = k * 2 + 1 := by ring
    apply ih (by omega)
    refine ⟨P ++ (inorderList N (k * 2) ++ [k]), S, ?_, ?_, hcand⟩
    · rw [h2k, hdec, hsub]
      simp [List.append_assoc]
    · intro j hj
      simp only [List.mem_append, List.mem_singleton] at hj
      rcases hj with hj | (hj | rfl)
      · exact hP j hj
      · have hle : lay.getD (j - 1) default ≤ lay.getD (k - 1) default := by
          refine sorted_split_le hsorted
            (X := P ++ inorderList N (k * 2))
            (Y := k :: (inorderList N (k * 2 + 1) ++ S)) ?_ ?_ ?_
          · rw [hdec, hsub]
            simp [List.append_assoc]
          · exact List.mem_append.mpr (Or.inr hj)
          · exact List.mem_cons_self _ _
        exact lt_of_le_of_lt hle hlt
      · exact hlt
  | case2 k cand hk hge ih =>
    intro _ hinv
    obtain ⟨P, S, hdec, hP, hcand⟩ := hinv
    rw [lastLeftTurn_of_ge hk hge]
    have hsub := inorderList_of_le hk.1 hk.2
    have h2k : 2 * k = k * 2 := by ring
    apply ih (by omega)
    refine ⟨P, k :: (inorderList N (k * 2 + 1) ++ S), ?_, hP, Or.inr ⟨rfl, hge⟩⟩
    rw [h2k, hdec, hsub]
    simp [List.append_assoc]
  | case3 k cand hk =>
    intro _ hinv
    obtain ⟨P, S, hdec, hP, hcand⟩ := hinv
    rw [lastLeftTurn_of_not hk]
    rw [inorderList_of_not hk] at hdec
    simp only [List.nil_append] at hdec
    rcases hcand with ⟨rfl, rfl⟩ | ⟨hhead, hge⟩
    · left
      refine ⟨rfl, ?_⟩
      intro j hj
      rw [hdec, List.append_nil] at hj
      exact hP j hj
    · right
      cases S with
      | nil => simp at hhead
      | cons c S2 =>
        simp only [List.head?_cons, Option.some.injEq] at hhead
        subst hhead
        exact ⟨P, S2, by rw [hdec], hP, hge⟩

/-- Outcome of a full `find` descent over a layout whose in-order read-out
is sorted: either the corrected index is `0` and every stored value is
`< value`, or it is an in-order position holding a value `≥ value` that is
preceded in sorted order only by values `< value`. -/
theorem find_idx_spec (lay : List α) (N : Nat) (value : α)
    (hsorted : List.Sorted (· ≤ ·)
      ((inorderList N 1).map (fun j => lay.getD (j - 1) default))) :
    (find_idx lay N value = 0 ∧
       ∀ j ∈ inorderList N 1, lay.getD (j - 1) default < value) ∨
    (∃ P' S' : List Nat,
       inorderList N 1 = P' ++ find_idx lay N value :: S' ∧
       (∀ j ∈ P', lay.getD (j - 1) default < value) ∧
       ¬ lay.getD (find_idx lay N value - 1) default < value) := by
  rw [find_idx_eq_lastLeftTurn]
  exact lastLeftTurn_spec lay N value hsorted 1 0 le_rfl
    ⟨[], [], by simp, by simp, Or.inl ⟨rfl, rfl⟩⟩

theorem getD_mem {β : Type} [Inhabited β] (l : List β) {q : Nat}
    (hq : q < l.length) : l.getD q default ∈ l := by
  rw [List.getD_eq_getElem _ _ hq]
  exact l.getElem_mem hq

theorem mem_getD {β : Type} [Inhabited β] {l : List β} {x : β} (hx : x ∈ l) :
    ∃ q : Nat, q < l.length ∧ l.getD q default = x := by
  obtain ⟨n, hn, rfl⟩ := List.mem_iff_getElem.mp hx
  exact ⟨n, hn, List.getD_eq_getElem _ _ hn⟩

theorem sorted_traversal (arr : List α) :
    List.Sorted (· ≤ ·) ((inorderList arr.length 1).map
      (fun j => (make_eytzinger arr).getD (j - 1) default)) := by
  rw [inorder_traversal_eq_sorted]
  exact List.sorted_insertionSort _ _

/-- Container-level lower-bound correctness: when some input element is
`≥ v`, the corrected index is a valid 1-based position whose element is the
least stored element `≥ v`. -/
theorem find_lower_bound (arr : List α) (v : α) (h : ∃ x ∈ arr, ¬ x < v) :
    1 ≤ find_idx (make_eytzinger arr) arr.length v ∧
    find_idx (make_eytzinger arr) arr.length v ≤ arr.length ∧
    ¬ (make_eytzinger arr).getD
        (find_idx (make_eytzinger arr) arr.length v - 1) default < v ∧
    ∀ q : Nat, q < arr.length →
      ¬ (make_eytzinger arr).getD q default < v →
      (make_eytzinger arr).getD
          (find_idx (make_eytzinger arr) arr.length v - 1) default
        ≤ (make_eytzinger arr).getD q default := by
  obtain ⟨x, hx, hxv⟩ := h
  have hxlay : x ∈ make_eytzinger arr := (make_eytzinger_perm arr).mem_iff.mpr hx
  have hlay : (make_eytzinger arr).length = arr.length := length_make_eytzinger arr
  rcases find_idx_spec (make_eytzinger arr) arr.length v (sorted_traversal arr)
    with ⟨-, hall⟩ | ⟨P', S', hdec, hP, hge⟩
  · exfalso
    obtain ⟨q, hq, hqx⟩ := mem_getD hxlay
    have hmem : q + 1 ∈ inorderList arr.length 1 :=
      mem_inorderList_one.mpr ⟨by omega, by omega⟩
    have := hall (q + 1) hmem
    simp only [Nat.add_sub_cancel] at this
    rw [hqx] at this
    exact hxv this
  · have hmem : find_idx (make_eytzinger arr) arr.length v
        ∈ inorderList arr.length 1 := by
      rw [hdec]
      exact List.mem_append.mpr (Or.inr (List.mem_cons_self _ _))
    have h1N := mem_inorderList_one.mp hmem
    refine ⟨h1N.1, h1N.2, hge, ?_⟩
    intro q hq hqge
    have hq1 : q + 1 ∈ inorderList arr.length 1 :=
      mem_inorderList_one.mpr ⟨by omega, by omega⟩
    rw [hdec] at hq1
    rcases List.mem_append.mp hq1 with hq1 | hq1
    · exfalso
      have := hP (q + 1) hq1
      simp only [Nat.add_sub_cancel] at this
      exact hqge this
    · rcases List.mem_cons.mp hq1 with heq | hq1
      · rw [← heq]
        simp only [Nat.add_sub_cancel]
        exact le_rfl
      · have hle := sorted_split_le (sorted_traversal arr)
          (X := P' ++ [find_idx (make_eytzinger arr) arr.length v]) (Y := S')
          (by rw [hdec]; simp [List.append_assoc])
          (List.mem_append.mpr (Or.inr (List.mem_singleton.mpr rfl))) hq1
        simpa only [Nat.add_sub_cancel] using hle

/-- The corrected index is `0` exactly when every input element is `< v`
(the target is strictly greater than everything stored). -/
theorem find_idx_eq_zero_iff (arr : List α) (v : α) :
    find_idx (make_eytzinger arr) arr.length v = 0 ↔ ∀ x ∈ arr, x < v := by
  have hlay : (make_eytzinger arr).length = arr.length := length_make_eytzinger arr
  constructor
  · intro h0
    rcases find_idx_spec (make_eytzinger arr) arr.length v (sorted_traversal arr)
      with ⟨-, hall⟩ | ⟨P', S', hdec, hP, hge⟩
    · intro x hx
      obtain ⟨q, hq, hqx⟩ :=
        mem_getD ((make_eytzinger_perm arr).mem_iff.mpr hx)
      have hmem : q + 1 ∈ inorderList arr.length 1 :=
        mem_inorderList_one.mpr ⟨by omega, by omega⟩
      have := hall (q + 1) hmem
      simp only [Nat.add_sub_cancel] at this
      rw [hqx] at this
      exact this
    · exfalso
      have hmem : find_idx (make_eytzinger arr) arr.length v
          ∈ inorderList arr.length 1 := by
        rw [hdec]
        exact List.mem_append.mpr (Or.inr (List.mem_cons_self _ _))
      have h1N := mem_inorderList_one.mp hmem
      omega
  · intro hall
    rcases find_idx_spec (make_eytzinger arr) arr.length v (sorted_traversal arr)
      with ⟨h0, -⟩ | ⟨P', S', hdec, hP, hge⟩
    · exact h0
    · exfalso
      have hmem : find_idx (make_eytzinger arr) arr.length v
          ∈ inorderList arr.length 1 := by
        rw [hdec]
        exact List.mem_append.mpr (Or.inr (List.mem_cons_self _ _))
      have h1N := mem_inorderList_one.mp hmem
      have hq : find_idx (make_eytzinger arr) arr.length v - 1
          < (make_eytzinger arr).length := by omega
      have hmemlay := getD_mem (make_eytzinger arr) hq
      have hmemarr := (make_eytzinger_perm arr).mem_iff.mp hmemlay
      exact hge (hall _ hmemarr)

/-! ## Small bridging helpers for the claim statements -/

theorem find_offset_toNat (lay : List α) (N : Nat) (v : α) :
    (find_offset lay N v).toNat = find_idx lay N v - 1 := by
  unfold find_offset
  omega

theorem sorted_getD_mono {s : List α} (hs : List.Sorted (· ≤ ·) s)
    {m1 m2 : Nat} (h12 : m1 ≤ m2) (h2 : m2 < s.length) :
    s.getD m1 default ≤ s.getD m2 default := by
  rcases Nat.eq_or_lt_of_le h12 with rfl | hlt
  · exact le_rfl
  · have hp : List.Pairwise (· ≤ ·) s := hs
    rw [List.pairwise_iff_getElem] at hp
    rw [List.getD_eq_getElem _ _ (by omega), List.getD_eq_getElem _ _ h2]
    exact hp m1 m2 (by omega) h2 hlt

/-! ## Claim theorems -/

/-- C2: for every input array and every element `e` present in the input,
`find(e)` returns a valid position `p` in `[0, N)` whose stored element is
equivalent to `e` under the comparator: `!comp(layout[p], e)` and
`!comp(e, layout[p])`. -/
theorem C2_present_found (arr : List α) (e : α) (he : e ∈ arr) :
    0 ≤ find_offset (make_eytzinger arr) arr.length e ∧
    (find_offset (make_eytzinger arr) arr.length e).toNat < arr.length ∧
    ¬ (make_eytzinger arr).getD
        (find_offset (make_eytzinger arr) arr.length e).toNat default < e ∧
    ¬ e < (make_eytzinger arr).getD
        (find_offset (make_eytzinger arr) arr.length e).toNat default := by
  obtain ⟨h1, h2, hge, hmin⟩ := find_lower_bound arr e ⟨e, he, lt_irrefl e⟩
  have ht := find_offset_toNat (make_eytzinger arr) arr.length e
  have hlay := length_make_eytzinger arr
  have h0 : 0 ≤ find_offset (make_eytzinger arr) arr.length e := by
    unfold find_offset
    omega
  rw [ht]
  refine ⟨h0, by omega, hge, ?_⟩
  obtain ⟨q, hq, hqe⟩ := mem_getD ((make_eytzinger_perm arr).mem_iff.mpr he)
  have hle := hmin q (by omega) (by rw [hqe]; exact lt_irrefl e)
  rw [hqe] at hle
  exact not_lt.mpr hle

/-- C2 witness: the element `4`, present in the input `{5, 3, 1, 4, 2}`, is
found at a valid position holding an element equivalent to `4`. -/
theorem C2_present_found_witness :
    (4 ∈ ([5, 3, 1, 4, 2] : List Nat)) ∧
    (0 ≤ find_offset (make_eytzinger ([5, 3, 1, 4, 2] : List Nat))
        ([5, 3, 1, 4, 2] : List Nat).length 4 ∧
     (find_offset (make_eytzinger ([5, 3, 1, 4, 2] : List Nat))
        ([5, 3, 1, 4, 2] : List Nat).length 4).toNat
        < ([5, 3, 1, 4, 2] : List Nat).length ∧
     ¬ (make_eytzinger ([5, 3, 1, 4, 2] : List Nat)).getD
         (find_offset (make_eytzinger ([5, 3, 1, 4, 2] : List Nat))
           ([5, 3, 1, 4, 2] : List Nat).length 4).toNat default < 4 ∧
     ¬ (4 : Nat) < (make_eytzinger ([5, 3, 1, 4, 2] : List Nat)).getD
         (find_offset (make_eytzinger ([5, 3, 1, 4, 2] : List Nat))
           ([5, 3, 1, 4, 2] : List Nat).length 4).toNat default) :=
  ⟨by decide, C2_present_found ([5, 3, 1, 4, 2] : List Nat) 4 (by decide)⟩

/-- C3: the in-order traversal of the constructed layout, viewed as the
implicit binary tree on indices `1..N`, reproduces exactly the input sorted
under the comparator, and the layout is a permutation of the input
multiset. -/
theorem C3_inorder_roundtrip (arr s : List α) (hperm : s.Perm arr)
    (hsort : List.Sorted (· ≤ ·) s) :
    (inorderList arr.length 1).map
        (fun j => (make_eytzinger arr).getD (j - 1) default) = s ∧
    (make_eytzinger arr).Perm arr := by
  refine ⟨?_, make_eytzinger_perm arr⟩
  rw [inorder_traversal_eq_sorted]
  exact List.eq_of_perm_of_sorted
    ((List.perm_insertionSort _ arr).trans hperm.symm)
    (List.sorted_insertionSort _ _) hsort

/-- C3 witness: for the input `{3, 1, 2}` with sorted order `{1, 2, 3}`,
the in-order traversal of the layout is `{1, 2, 3}` and the layout is a
permutation of the input. -/
theorem C3_inorder_roundtrip_witness :
    (([1, 2, 3] : List Nat).Perm [3, 1, 2] ∧
     List.Sorted (· ≤ ·) ([1, 2, 3] : List Nat)) ∧
    ((inorderList ([3, 1, 2] : List Nat).length 1).map
        (fun j => (make_eytzinger ([3, 1, 2] : List Nat)).getD (j - 1) default)
      = [1, 2, 3] ∧
     (make_eytzinger ([3, 1, 2] : List Nat)).Perm [3, 1, 2]) :=
  ⟨⟨by decide, by decide⟩,
   C3_inorder_roundtrip ([3, 1, 2] : List Nat) [1, 2, 3] (by decide) (by decide)⟩

/-- C4 counterexample: for the container `{5}` and target `3` (strictly
smaller than every stored element) the corrected index is `1`, not `0`, and
`find` returns offset `0` (the minimum element's position), not the end
offset `1`: the claim has the direction of the miss reversed. -/
theorem C4_counterexample :
    (∀ x ∈ make_eytzinger ([5] : List Nat), (3 : Nat) < x) ∧
    find_idx (make_eytzinger ([5] : List Nat)) 1 3 ≠ 0 ∧
    find_offset (make_eytzinger ([5] : List Nat)) 1 3 ≠ (1 : Int) := by
  have hm : make_eytzinger ([5] : List Nat) = [5] := by
    simp [make_eytzinger, breadth_first_copy, List.insertionSort,
      List.orderedInsert]
  have hf : find_idx (make_eytzinger ([5] : List Nat)) 1 3 = 1 := by
    rw [hm]
    simp [find_idx, findLoop, correct, ffsNot]
  refine ⟨?_, by rw [hf]; omega, ?_⟩
  · rw [hm]
    intro x hx
    simp only [List.mem_singleton] at hx
    omega
  · unfold find_offset
    rw [hf]
    omega

/-- C4 (amended): for every container and every target strictly greater
than every stored element (`comp(x, target)` holds for all stored `x`), the
corrected index computed by `find` is `0`, and `find` returns the
before-begin offset `-1` (not the end position). -/
theorem C4_greater_than_all (arr : List α) (v : α) (h : ∀ x ∈ arr, x < v) :
    find_idx (make_eytzinger arr) arr.length v = 0 ∧
    find_offset (make_eytzinger arr) arr.length v = -1 := by
  have h0 := (find_idx_eq_zero_iff arr v).mpr h
  refine ⟨h0, ?_⟩
  unfold find_offset
  rw [h0]
  rfl

/-- C4 witness: for the container `{5}` and the target `10`, which is
greater than every stored element, the corrected index is `0` and the
returned offset is `-1`. -/
theorem C4_greater_than_all_witness :
    (∀ x ∈ ([5] : List Nat), x < 10) ∧
    (find_idx (make_eytzinger ([5] : List Nat)) ([5] : List Nat).length 10 = 0 ∧
     find_offset (make_eytzinger ([5] : List Nat)) ([5] : List Nat).length 10 = -1) :=
  ⟨by decide, C4_greater_than_all ([5] : List Nat) 10 (by decide)⟩

/-- C5 counterexample: for the container `{5}` and target `10` the
corrected index is `0` (a miss), but the returned offset is `-1`, one
position before `begin()`, which is not the end offset `1`: a miss is not
mapped to `end()`. -/
theorem C5_counterexample :
    find_idx (make_eytzinger ([5] : List Nat)) 1 10 = 0 ∧
    find_offset (make_eytzinger ([5] : List Nat)) 1 10 = -1 ∧
    find_offset (make_eytzinger ([5] : List Nat)) 1 10 ≠ (1 : Int) := by
  have hm : make_eytzinger ([5] : List Nat) = [5] := by
    simp [make_eytzinger, breadth_first_copy, List.insertionSort,
      List.orderedInsert]
  have hf : find_idx (make_eytzinger ([5] : List Nat)) 1 10 = 0 := by
    rw [hm]
    simp [find_idx, findLoop, correct, ffsNot]
  have ho : find_offset (make_eytzinger ([5] : List Nat)) 1 10 = -1 := by
    unfold find_offset
    rw [hf]
    rfl
  exact ⟨hf, ho, by rw [ho]; omega⟩

/-- C5 (amended): whenever the corrected index is `0` (a search miss),
`find` returns the before-begin offset `-1`, which differs from the end
offset `N` and from every valid position offset in `[0, N)`; a miss is
distinguishable from any valid match, but by comparison against
`begin() - 1`, not against `end()`. -/
theorem C5_miss_before_begin (arr : List α) (v : α)
    (h : find_idx (make_eytzinger arr) arr.length v = 0) :
    find_offset (make_eytzinger arr) arr.length v = -1 ∧
    find_offset (make_eytzinger arr) arr.length v ≠ (arr.length : Int) ∧
    ∀ q : Nat, q < arr.length →
      find_offset (make_eytzinger arr) arr.length v ≠ (q : Int) := by
  have ho : find_offset (make_eytzinger arr) arr.length v = -1 := by
    unfold find_offset
    rw [h]
    rfl
  refine ⟨ho, by rw [ho]; omega, ?_⟩
  intro q _
  rw [ho]
  omega

/-- C5 witness: for the container `{5}` and target `10` the corrected index
is `0`, and the returned offset `-1` differs from the end offset and from
the only valid offset `0`. -/
theorem C5_miss_before_begin_witness :
    (find_idx (make_eytzinger ([5] : List Nat)) ([5] : List Nat).length 10 = 0) ∧
    (find_offset (make_eytzinger ([5] : List Nat)) ([5] : List Nat).length 10 = -1 ∧
     find_offset (make_eytzinger ([5] : List Nat)) ([5] : List Nat).length 10
       ≠ (([5] : List Nat).length : Int) ∧
     ∀ q : Nat, q < ([5] : List Nat).length →
       find_offset (make_eytzinger ([5] : List Nat)) ([5] : List Nat).length 10
         ≠ (q : Int)) :=
  ⟨by simp [make_eytzinger, breadth_first_copy, List.insertionSort,
      List.orderedInsert, find_idx, findLoop, correct, ffsNot],
   C5_miss_before_begin ([5] : List Nat) 10
     (by simp [make_eytzinger, breadth_first_copy, List.insertionSort,
       List.orderedInsert, find_idx, findLoop, correct, ffsNot])⟩

/-- C8 counterexample: for the input `{1, 2, 3}` the permuted backing
buffer read in array order is `[2, 1, 3]`, which is not the sorted input
`[1, 2, 3]`: a level-order (array-order) read of the output is the
Eytzinger permutation, not sorted order. -/
theorem C8_counterexample :
    make_eytzinger ([1, 2, 3] : List Nat) = [2, 1, 3] ∧
    List.insertionSort (· ≤ ·) ([1, 2, 3] : List Nat) = [1, 2, 3] ∧
    ([2, 1, 3] : List Nat) ≠ [1, 2, 3] := by
  refine ⟨?_, by decide, by decide⟩
  simp [make_eytzinger, breadth_first_copy, List.insertionSort,
    List.orderedInsert]

/-- C8 (amended): for every input array, the in-order traversal (not the
level-order/array-order read) of the built output equals the input sorted
under the comparator. -/
theorem C8_inorder_reads_sorted (arr s : List α) (hperm : s.Perm arr)
    (hsort : List.Sorted (· ≤ ·) s) :
    (inorderList arr.length 1).map
        (fun j => (make_eytzinger arr).getD (j - 1) default) = s := by
  rw [inorder_traversal_eq_sorted]
  exact List.eq_of_perm_of_sorted
    ((List.perm_insertionSort _ arr).trans hperm.symm)
    (List.sorted_insertionSort _ _) hsort

/-- C8 witness: for the input `{2, 3, 1}` the in-order traversal of the
layout is the sorted input `{1, 2, 3}`. -/
theorem C8_inorder_reads_sorted_witness :
    (([1, 2, 3] : List Nat).Perm [2, 3, 1] ∧
     List.Sorted (· ≤ ·) ([1, 2, 3] : List Nat)) ∧
    (inorderList ([2, 3, 1] : List Nat).length 1).map
        (fun j => (make_eytzinger ([2, 3, 1] : List Nat)).getD (j - 1) default)
      = [1, 2, 3] :=
  ⟨⟨by decide, by decide⟩,
   C8_inorder_reads_sorted ([2, 3, 1] : List Nat) [1, 2, 3] (by decide) (by decide)⟩

theorem findLoopAccesses_of_le {lay : List α} {N : Nat} {value : α} {k : Nat}
    (h : 1 ≤ k ∧ k ≤ N) :
    findLoopAccesses lay N value k
      = (k - 1) :: findLoopAccesses lay N value
          (2 * k + if lay.getD (k - 1) default < value then 1 else 0) := by
  conv_lhs => rw [findLoopAccesses]
  simp only [if_pos h]

theorem findLoopAccesses_of_not {lay : List α} {N : Nat} {value : α} {k : Nat}
    (h : ¬(1 ≤ k ∧ k ≤ N)) :
    findLoopAccesses lay N value k = [] := by
  rw [findLoopAccesses]; simp only [if_neg h]

/-- C9: for every container (any size, including `N = 0`) and every target,
each buffer position read by the descent loop of `find` is `k - 1` for a
walking index `1 ≤ k ≤ N`: the loop never reads outside `[0, N)`. -/
theorem C9_no_out_of_bounds_access (arr : List α) (v : α) :
    ∀ p ∈ findLoopAccesses (make_eytzinger arr) arr.length v 1,
      p < arr.length := by
  suffices h : ∀ k, 1 ≤ k →
      ∀ p ∈ findLoopAccesses (make_eytzinger arr) arr.length v k,
        p < arr.length from h 1 le_rfl
  intro k
  induction k using findLoopAccesses.induct (make_eytzinger arr) arr.length v with
  | case1 k hk ih =>
    intro _ p hp
    rw [findLoopAccesses_of_le hk] at hp
    rcases List.mem_cons.mp hp with rfl | hp
    · omega
    · exact ih (by omega) p hp
  | case2 k hk =>
    intro _ p hp
    rw [findLoopAccesses_of_not hk] at hp
    cases hp

/-- C9 witness: searching `1` in the container built from `{1, 2}` reads
position `0`, which is inside `[0, 2)`. -/
theorem C9_no_out_of_bounds_access_witness :
    (0 ∈ findLoopAccesses (make_eytzinger ([1, 2] : List Nat))
        ([1, 2] : List Nat).length 1 1) ∧
    (0 : Nat) < ([1, 2] : List Nat).length :=
  ⟨by simp [make_eytzinger, breadth_first_copy, List.insertionSort,
      List.orderedInsert, findLoopAccesses],
   C9_no_out_of_bounds_access ([1, 2] : List Nat) 1 0
     (by simp [make_eytzinger, breadth_first_copy, List.insertionSort,
       List.orderedInsert, findLoopAccesses])⟩

/-- C10: the constructed layout is a pure function of the input multiset:
construction from any two permutations of the same values (with the same
comparator) yields identical layouts. -/
theorem C10_determinism (arr1 arr2 : List α) (h : arr1.Perm arr2) :
    make_eytzinger arr1 = make_eytzinger arr2 := by
  have hl : arr1.length = arr2.length := h.length_eq
  have hs : List.insertionSort (· ≤ ·) arr1 = List.insertionSort (· ≤ ·) arr2 :=
    List.eq_of_perm_of_sorted
      ((List.perm_insertionSort _ arr1).trans
        (h.trans (List.perm_insertionSort _ arr2).symm))
      (List.sorted_insertionSort _ _) (List.sorted_insertionSort _ _)
  simp only [make_eytzinger]
  rw [hs, hl]

/-- C10 witness: the permuted inputs `{2, 1, 1}` and `{1, 2, 1}` build the
same layout. -/
theorem C10_determinism_witness :
    ([2, 1, 1] : List Nat).Perm [1, 2, 1] ∧
    make_eytzinger ([2, 1, 1] : List Nat) = make_eytzinger ([1, 2, 1] : List Nat) :=
  ⟨by decide, C10_determinism ([2, 1, 1] : List Nat) [1, 2, 1] (by decide)⟩

/-- C1 counterexample: for the container built from `{1, 3}` and the target
`2`, which lies strictly between the adjacent elements `1 < 2 < 3`, `find`
returns offset `0`, whose stored element is `3`; `3` is not `≤ 2`, so the
result is not the position of the greatest element `≤ target` (which would
be the position of `1`). -/
theorem C1_counterexample :
    make_eytzinger ([1, 3] : List Nat) = [3, 1] ∧
    find_offset (make_eytzinger ([1, 3] : List Nat)) 2 2 = 0 ∧
    (make_eytzinger ([1, 3] : List Nat)).getD 0 default = 3 ∧
    ¬ ((3 : Nat) ≤ 2) := by
  have hm : make_eytzinger ([1, 3] : List Nat) = [3, 1] := by
    simp [make_eytzinger, breadth_first_copy, List.insertionSort,
      List.orderedInsert]
  have hf : find_offset (make_eytzinger ([1, 3] : List Nat)) 2 2 = 0 := by
    rw [hm]
    simp [find_offset, find_idx, findLoop, correct, ffsNot]
  exact ⟨hm, hf, by rw [hm]; rfl, by omega⟩

/-- C1 (amended): for every container and target, `find(target)` returns
the position of the least stored element `≥ target` (not the greatest
`≤ target`); in particular, for a target strictly between two elements
`a < target < b` that are adjacent in sorted order, `find(target)` returns
a position holding `b`. -/
theorem C1_between_adjacent (arr s : List α) (i : Nat) (v : α)
    (hperm : s.Perm arr) (hsort : List.Sorted (· ≤ ·) s)
    (hi : i + 1 < s.length)
    (ha : s.getD i default < v) (hb : v < s.getD (i + 1) default) :
    0 ≤ find_offset (make_eytzinger arr) arr.length v ∧
    (make_eytzinger arr).getD
        (find_offset (make_eytzinger arr) arr.length v).toNat default
      = s.getD (i + 1) default := by
  have hbmem : s.getD (i + 1) default ∈ arr :=
    hperm.mem_iff.mp (getD_mem s hi)
  have hnb : ¬ s.getD (i + 1) default < v := not_lt.mpr (le_of_lt hb)
  obtain ⟨h1, h2, hge, hmin⟩ := find_lower_bound arr v ⟨_, hbmem, hnb⟩
  have ht := find_offset_toNat (make_eytzinger arr) arr.length v
  have hlay := length_make_eytzinger arr
  have h0 : 0 ≤ find_offset (make_eytzinger arr) arr.length v := by
    unfold find_offset
    omega
  rw [ht]
  refine ⟨h0, le_antisymm ?_ ?_⟩
  · obtain ⟨q, hq, hqb⟩ :=
      mem_getD ((make_eytzinger_perm arr).mem_iff.mpr hbmem)
    have hle := hmin q (by omega) (by rw [hqb]; exact hnb)
    rw [hqb] at hle
    exact hle
  · have hpmem : (make_eytzinger arr).getD
        (find_idx (make_eytzinger arr) arr.length v - 1) default ∈ s :=
      hperm.mem_iff.mpr
        ((make_eytzinger_perm arr).mem_iff.mp (getD_mem _ (by omega)))
    obtain ⟨m, hm, hms⟩ := mem_getD hpmem
    have hvp : v ≤ (make_eytzinger arr).getD
        (find_idx (make_eytzinger arr) arr.length v - 1) default :=
      not_lt.mp hge
    rcases Nat.lt_or_ge m (i + 1) with hmi | hmi
    · exfalso
      have hmono : s.getD m default ≤ s.getD i default :=
        sorted_getD_mono hsort (by omega) (by omega)
      rw [hms] at hmono
      exact absurd (lt_of_le_of_lt (hvp.trans hmono) ha) (lt_irrefl v)
    · calc s.getD (i + 1) default
          ≤ s.getD m default := sorted_getD_mono hsort hmi hm
        _ = _ := hms

/-- C1 witness: in the container `{1, 3}` with `1 < 2 < 3` adjacent in
sorted order, `find(2)` returns a valid position holding `3`. -/
theorem C1_between_adjacent_witness :
    (([1, 3] : List Nat).Perm [1, 3] ∧
     List.Sorted (· ≤ ·) ([1, 3] : List Nat) ∧
     0 + 1 < ([1, 3] : List Nat).length ∧
     ([1, 3] : List Nat).getD 0 default < 2 ∧
     2 < ([1, 3] : List Nat).getD (0 + 1) default) ∧
    (0 ≤ find_offset (make_eytzinger ([1, 3] : List Nat))
        ([1, 3] : List Nat).length 2 ∧
     (make_eytzinger ([1, 3] : List Nat)).getD
         (find_offset (make_eytzinger ([1, 3] : List Nat))
           ([1, 3] : List Nat).length 2).toNat default
       = ([1, 3] : List Nat).getD (0 + 1) default) :=
  ⟨⟨by decide, by decide, by decide, by decide, by decide⟩,
   C1_between_adjacent ([1, 3] : List Nat) [1, 3] 0 2
     (by decide) (by decide) (by decide) (by decide) (by decide)⟩

/-- C6: when some stored element is `≥ target`, `find(target)` returns a
valid position holding the least stored element that is not less than the
target (C++ `lower_bound` semantics), and the corrected 1-based index it
computes is the tree index of the last node at which the descent went
left. -/
theorem C6_lower_bound_semantics (arr : List α) (v : α)
    (h : ∃ x ∈ arr, ¬ x < v) :
    (0 ≤ find_offset (make_eytzinger arr) arr.length v ∧
     (find_offset (make_eytzinger arr) arr.length v).toNat < arr.length ∧
     ¬ (make_eytzinger arr).getD
         (find_offset (make_eytzinger arr) arr.length v).toNat default < v ∧
     ∀ q : Nat, q < arr.length →
       ¬ (make_eytzinger arr).getD q default < v →
       (make_eytzinger arr).getD
           (find_offset (make_eytzinger arr) arr.length v).toNat default
         ≤ (make_eytzinger arr).getD q default) ∧
    find_idx (make_eytzinger arr) arr.length v
      = lastLeftTurn (make_eytzinger arr) arr.length v 1 0 := by
  obtain ⟨h1, h2, hge, hmin⟩ := find_lower_bound arr v h
  have ht := find_offset_toNat (make_eytzinger arr) arr.length v
  rw [ht]
  exact ⟨⟨by unfold find_offset; omega, by omega, hge, hmin⟩,
    find_idx_eq_lastLeftTurn _ _ _⟩

/-- C6 witness: in the container `{2, 1, 3}` with target `2`, `find`
returns a valid position holding the least element `≥ 2`, and the
corrected index matches the last left turn of the descent. -/
theorem C6_lower_bound_semantics_witness :
    (∃ x ∈ ([2, 1, 3] : List Nat), ¬ x < 2) ∧
    ((0 ≤ find_offset (make_eytzinger ([2, 1, 3] : List Nat))
        ([2, 1, 3] : List Nat).length 2 ∧
      (find_offset (make_eytzinger ([2, 1, 3] : List Nat))
        ([2, 1, 3] : List Nat).length 2).toNat < ([2, 1, 3] : List Nat).length ∧
      ¬ (make_eytzinger ([2, 1, 3] : List Nat)).getD
          (find_offset (make_eytzinger ([2, 1, 3] : List Nat))
            ([2, 1, 3] : List Nat).length 2).toNat default < 2 ∧
      ∀ q : Nat, q < ([2, 1, 3] : List Nat).length →
        ¬ (make_eytzinger ([2, 1, 3] : List Nat)).getD q default < 2 →
        (make_eytzinger ([2, 1, 3] : List Nat)).getD
            (find_offset (make_eytzinger ([2, 1, 3] : List Nat))
              ([2, 1, 3] : List Nat).length 2).toNat default
          ≤ (make_eytzinger ([2, 1, 3] : List Nat)).getD q default) ∧
     find_idx (make_eytzinger ([2, 1, 3] : List Nat))
         ([2, 1, 3] : List Nat).length 2
       = lastLeftTurn (make_eytzinger ([2, 1, 3] : List Nat))
           ([2, 1, 3] : List Nat).length 2 1 0) :=
  ⟨⟨2, by decide, by decide⟩,
   C6_lower_bound_semantics ([2, 1, 3] : List Nat) 2 ⟨2, by decide, by decide⟩⟩

/-- C7 counterexample: for the input `{5, 3, 1, 4, 2}` construction
produces the layout `1:4, 2:2, 3:5, 4:1, 5:3` — not the claimed
`1:3, 2:2, 3:5, 4:1, 5:4` — and `find(5)` returns the iterator at distance
`2` from `begin()` (the buffer position holding `5`), not `4`.  (The usage
example in the source header asserts distance `4`; the actual behaviour of
the code is distance `2`.) -/
theorem C7_counterexample :
    make_eytzinger ([5, 3, 1, 4, 2] : List Nat) ≠ [3, 2, 5, 1, 4] ∧
    find_offset (make_eytzinger ([5, 3, 1, 4, 2] : List Nat)) 5 5 ≠ 4 := by
  have hm : make_eytzinger ([5, 3, 1, 4, 2] : List Nat) = [4, 2, 5, 1, 3] := by
    simp [make_eytzinger, breadth_first_copy, List.insertionSort,
      List.orderedInsert]
  have hf : find_offset (make_eytzinger ([5, 3, 1, 4, 2] : List Nat)) 5 5 = 2 := by
    rw [hm]
    simp [find_offset, find_idx, findLoop, correct, ffsNot]
  exact ⟨by rw [hm]; decide, by rw [hf]; omega⟩

/-- C7 (amended): for the concrete input `{5, 3, 1, 4, 2}` with the default
ascending comparator, construction produces the layout (1-based tree index
→ value) `1:4, 2:2, 3:5, 4:1, 5:3`, and `find(5)` returns an iterator whose
distance from `begin()` equals `2` (the position holding `5`). -/
theorem C7_concrete :
    make_eytzinger ([5, 3, 1, 4, 2] : List Nat) = [4, 2, 5, 1, 3] ∧
    find_offset (make_eytzinger ([5, 3, 1, 4, 2] : List Nat)) 5 5 = 2 := by
  have hm : make_eytzinger ([5, 3, 1, 4, 2] : List Nat) = [4, 2, 5, 1, 3] := by
    simp [make_eytzinger, breadth_first_copy, List.insertionSort,
      List.orderedInsert]
  refine ⟨hm, ?_⟩
  rw [hm]
  simp [find_offset, find_idx, findLoop, correct, ffsNot]

end Eytzinger
